import Mathlib

/-!
Verification of the Ruby-to-C# transpiler core (`convert_ruby.py`):
a regex-based lexer (`tokenize_ruby_code`), a stack-based block parser
(`parse_tokens`) and a renderer (`transpile_to_csharp`).

The embedding is shallow: Python dict nodes become an inductive `Node`;
the mutable parser stack becomes an explicit list of in-progress blocks
(head = top of stack, body lists kept in Python append order); fatal
Python exceptions (`IndexError` from popping an empty stack or indexing
an empty body, `KeyError` from reading a block node's missing value key)
become `none` in `Option`-valued functions.
-/

namespace ConvertRuby

/-- Character class of the regex alternative `[A-Za-z_]`: what may start an
identifier run. -/
def isIdentStart (c : Char) : Bool :=
  (65 ≤ c.toNat && c.toNat ≤ 90) || (97 ≤ c.toNat && c.toNat ≤ 122) ||
  c.toNat = 95

/-- Character class of the regex alternative `[A-Za-z0-9_]`: what may continue
an identifier run. -/
def isIdentChar (c : Char) : Bool :=
  isIdentStart c || (48 ≤ c.toNat && c.toNat ≤ 57)

/-- The whitespace characters excluded by the regex alternative `\S`. The
pattern is a Python 3 str pattern, so `\s`/`\S` use Unicode whitespace
(`Py_UNICODE_ISSPACE`, the same set as `str.isspace`): tab through carriage
return (9 to 13), the information separators and space (28 to 32), next line
(133), no-break space (160), ogham space mark (5760), the Unicode spaces
(8192 to 8202), line separator (8232), paragraph separator (8233), narrow
no-break space (8239), medium mathematical space (8287) and ideographic
space (12288). -/
def isPySpace (c : Char) : Bool :=
  (9 ≤ c.toNat && c.toNat ≤ 13) || (28 ≤ c.toNat && c.toNat ≤ 32) ||
  c.toNat = 133 || c.toNat = 160 || c.toNat = 5760 ||
  (8192 ≤ c.toNat && c.toNat ≤ 8202) || c.toNat = 8232 || c.toNat = 8233 ||
  c.toNat = 8239 || c.toNat = 8287 || c.toNat = 12288

/-- State machine equivalent of scanning with
`re.findall(r"[A-Za-z_][A-Za-z0-9_]*|\S", code)`: the first argument is the
identifier run currently being accumulated (empty when not inside a run).
A run starts at a `[A-Za-z_]` character and absorbs `[A-Za-z0-9_]`
characters greedily; any other non-whitespace character is a single-character
token; whitespace is skipped. -/
def tokenizeAux : List Char → List Char → List String
  | acc, [] => if acc.isEmpty then [] else [String.mk acc]
  | acc, c :: cs =>
    if acc.isEmpty then
      if isIdentStart c then tokenizeAux [c] cs
      else if isPySpace c then tokenizeAux [] cs
      else String.mk [c] :: tokenizeAux [] cs
    else
      if isIdentChar c then tokenizeAux (acc ++ [c]) cs
      else if isPySpace c then String.mk acc :: tokenizeAux [] cs
      else String.mk acc :: String.mk [c] :: tokenizeAux [] cs

/-- `tokenize_ruby_code` from the source: tokenize the raw text. -/
def tokenize_ruby_code (code : String) : List String :=
  tokenizeAux [] code.data

/-- AST nodes built by `parse_tokens`: a Python dict is either
`{"type": kind, "body": [...]}` (a block node) or
`{"type": "code", "value": token}` (a code fragment). -/
inductive Node where
  | block (kind : String) (body : List Node)
  | code (value : String)

/-- The block-opening keywords tested by
`token in ("class", "def", "if", "while", "else", "elsif", "do")`. -/
def isBlockKeyword (t : String) : Bool :=
  t = "class" || t = "def" || t = "if" || t = "while" ||
  t = "else" || t = "elsif" || t = "do"

/-- One in-progress block on the parser stack: its kind and the body built
so far (in append order). -/
def StackEntry : Type := String × List Node

/-- One iteration of the `for token in tokens` loop of `parse_tokens`,
acting on the pair (ast, stack). The stack's head is Python's `stack[-1]`.
Popping an empty stack (`stack.pop()` on `[]`) is the fatal `IndexError`,
modelled as `none`. -/
def parseStep (st : List Node × List (String × List Node)) (token : String) :
    Option (List Node × List (String × List Node)) :=
  let ast := st.1
  let stack := st.2
  if isBlockKeyword token then
    some (ast, (token, []) :: stack)
  else if token = "end" then
    match stack with
    | [] => none
    | (k, body) :: rest =>
      match rest with
      | [] => some (ast ++ [Node.block k body], [])
      | (k2, b2) :: rest2 => some (ast, (k2, b2 ++ [Node.block k body]) :: rest2)
  else
    match stack with
    | [] => some (ast ++ [Node.code token], [])
    | (k, b) :: rest => some (ast, (k, b ++ [Node.code token]) :: rest)

/-- The parse loop: run `parseStep` over the remaining tokens. At the end of
input the ast is returned and whatever remains on the stack is dropped, as in
the source's final `return ast`. -/
def parseAux : List String → List Node × List (String × List Node) → Option (List Node)
  | [], st => some st.1
  | t :: ts, st =>
    match parseStep st t with
    | none => none
    | some st2 => parseAux ts st2

/-- `parse_tokens` from the source: fold the tokens into a forest, starting
from an empty ast and an empty stack. `none` models the fatal `IndexError`
raised by `stack.pop()` on an empty stack. -/
def parse_tokens (tokens : List String) : Option (List Node) :=
  parseAux tokens ([], [])

/-- `RUBY_TO_CSHARP_KEYWORDS` from the source. -/
def RUBY_TO_CSHARP_KEYWORDS : List (String × String) :=
  [("def", "public void"), ("class", "public class"), ("end", "\x7d"),
   ("if", "if"), ("elsif", "else if"), ("else", "else"), ("while", "while"),
   ("do", "\x7b"), ("true", "true"), ("false", "false"), ("nil", "null")]

/-- Dictionary access `RUBY_TO_CSHARP_KEYWORDS[k]` (every key used by the
renderer is present, so the default is never reached). -/
def kwTable (k : String) : String :=
  (RUBY_TO_CSHARP_KEYWORDS.lookup k).getD ""

mutual

/-- `transpile_node` from the source. For `class`, `def`, `if` and `while`
the first body element's `value` is read unconditionally: an empty body
(`IndexError`) or a first element that is a block node (`KeyError`, block
dicts have no `value` key) is fatal, modelled as `none`. Kinds with no
branch (`else`, `elsif`, `do`) fall through and emit nothing, never visiting
their children. -/
def transpile_node : Node → Option String
  | Node.code v => some ("    " ++ v ++ "\n")
  | Node.block k body =>
    if k = "class" then
      match body with
      | Node.code name :: rest =>
        match transpile_list rest with
        | some s => some (kwTable ("class") ++ " " ++ name ++ " \x7b\n" ++ s ++ "\x7d\n")
        | none => none
      | _ => none
    else if k = "def" then
      match body with
      | Node.code name :: rest =>
        match transpile_list rest with
        | some s =>
          some ("    " ++ kwTable ("def") ++ " " ++ name ++ "() \x7b\n" ++ s ++ "    \x7d\n")
        | none => none
      | _ => none
    else if k = "if" then
      match body with
      | Node.code cond :: rest =>
        match transpile_list rest with
        | some s => some ("    " ++ kwTable ("if") ++ " (" ++ cond ++ ") \x7b\n" ++ s ++ "    \x7d\n")
        | none => none
      | _ => none
    else if k = "while" then
      match body with
      | Node.code cond :: rest =>
        match transpile_list rest with
        | some s => some ("    " ++ kwTable ("while") ++ " (" ++ cond ++ ") \x7b\n" ++ s ++ "    \x7d\n")
        | none => none
      | _ => none
    else
      some ""

/-- The loops `for child in node["body"][1:]` and `for node in ast`:
render a list of nodes in order, concatenating into the accumulator string. -/
def transpile_list : List Node → Option String
  | [] => some ""
  | n :: ns =>
    match transpile_node n with
    | none => none
    | some s =>
      match transpile_list ns with
      | none => none
      | some t => some (s ++ t)

end

/-- `transpile_to_csharp` from the source: render every top-level node of
the forest in order. -/
def transpile_to_csharp (ast : List Node) : Option String :=
  transpile_list ast

/-- The full pipeline of `transpile_ruby_to_csharp`, minus file I/O:
tokenize, parse, render. -/
def transpile_ruby (code : String) : Option String :=
  (parse_tokens (tokenize_ruby_code code)).bind transpile_to_csharp

/-- `depthOk ts d` holds when, running the parser loop with a stack of
current depth `d` over the remaining tokens `ts`, every occurrence of the
token `end` finds a non-empty stack: the depth grows by one at each
block-opening keyword and shrinks by one at each `end`. This formalises the
side condition of claim C4 ("every `end` finds a non-empty stack"). -/
def depthOk : List String → Nat → Bool
  | [], _ => true
  | t :: ts, d =>
    if isBlockKeyword t then depthOk ts (d + 1)
    else if t = "end" then
      match d with
      | 0 => false
      | Nat.succ d2 => depthOk ts d2
    else depthOk ts d

/-- Reference lexer written from the words of claim C8 exactly as stated:
each token is a maximal run of characters from the alphabet
(letters, digits, underscore) — any alphabet character may start a run —
or a single character that is neither whitespace nor in the alphabet. -/
def tokenizeClaimRuns : List Char → List String
  | [] => []
  | c :: cs =>
    if isIdentChar c then
      String.mk (c :: cs.takeWhile isIdentChar) :: tokenizeClaimRuns (cs.dropWhile isIdentChar)
    else if isPySpace c then tokenizeClaimRuns cs
    else String.mk [c] :: tokenizeClaimRuns cs
termination_by l => l.length
decreasing_by
  all_goals simp only [List.length_cons]
  · exact Nat.lt_succ_of_le ((List.dropWhile_suffix isIdentChar).sublist.length_le)
  · exact Nat.lt_succ_self _
  · exact Nat.lt_succ_self _

/-- Reference lexer following the spec's words amended to match the regex:
a maximal run must start with a letter or underscore (a digit not absorbed
into a preceding run stands alone), every other non-whitespace character is
a single-character token, whitespace separates. -/
def tokenizeSpecAmended : List Char → List String
  | [] => []
  | c :: cs =>
    if isIdentStart c then
      String.mk (c :: cs.takeWhile isIdentChar) :: tokenizeSpecAmended (cs.dropWhile isIdentChar)
    else if isPySpace c then tokenizeSpecAmended cs
    else String.mk [c] :: tokenizeSpecAmended cs
termination_by l => l.length
decreasing_by
  all_goals simp only [List.length_cons]
  · exact Nat.lt_succ_of_le ((List.dropWhile_suffix isIdentChar).sublist.length_le)
  · exact Nat.lt_succ_self _
  · exact Nat.lt_succ_self _

/-- Split a list of characters into lines at newline characters, the first
argument accumulating the current line. -/
def splitLinesAux : List Char → List Char → List String
  | cur, [] => [String.mk cur]
  | cur, c :: cs =>
    if c.toNat = 10 then String.mk cur :: splitLinesAux [] cs
    else splitLinesAux (cur ++ [c]) cs

/-- The lines of a string (split at newline characters). -/
def splitLines (s : String) : List String :=
  splitLinesAux [] s.data

/-- Join lines back into a string, terminating every line with a newline —
the shape of all renderer output. -/
def joinLines : List String → String
  | [] => ""
  | l :: ls => l ++ "\n" ++ joinLines ls

/-- Number of leading space characters of a character list. -/
def leadingSpacesAux : List Char → Nat
  | [] => 0
  | c :: cs => if c.toNat = 32 then leadingSpacesAux cs + 1 else 0

/-- Number of leading space characters of a string: its indentation. -/
def leadingSpaces (s : String) : Nat :=
  leadingSpacesAux s.data

/-- A fragment value with no whitespace characters at all — true of every
token the lexer can produce. -/
def cleanStr (v : String) : Bool :=
  v.data.all (fun c => !isPySpace c)

mutual

/-- Every fragment value in the tree is whitespace-free. -/
def cleanNode : Node → Bool
  | Node.code v => cleanStr v
  | Node.block _ body => cleanList body

/-- Every fragment value in the forest is whitespace-free. -/
def cleanList : List Node → Bool
  | [] => true
  | n :: ns => cleanNode n && cleanList ns

end

/-- The first element of a body is a code fragment. -/
def headIsCode : List Node → Bool
  | Node.code _ :: _ => true
  | _ => false

mutual

/-- Renderability: every `class`, `def`, `if` or `while` node in the tree
has a body whose first element is a code fragment. -/
def goodNode : Node → Bool
  | Node.code _ => true
  | Node.block k body =>
    (if k = "class" || k = "def" || k = "if" || k = "while" then headIsCode body
     else true) && goodList body

/-- Renderability of every node of a forest. -/
def goodList : List Node → Bool
  | [] => true
  | n :: ns => goodNode n && goodList ns

end

mutual

/-- The precondition in the words of claim C10: every `class`, `def`, `if`
or `while` node in the tree has a non-empty body. -/
def nonemptyBodiesNode : Node → Bool
  | Node.code _ => true
  | Node.block k body =>
    (if k = "class" || k = "def" || k = "if" || k = "while" then !body.isEmpty
     else true) && nonemptyBodiesList body

/-- `nonemptyBodiesNode` for every node of a forest. -/
def nonemptyBodiesList : List Node → Bool
  | [] => true
  | n :: ns => nonemptyBodiesNode n && nonemptyBodiesList ns

end

mutual

/-- The individual output lines (without their terminating newline) that
`transpile_node` emits, following its branch structure exactly; on branches
where `transpile_node` fails the value is irrelevant (the bridge lemma is
conditional on success). -/
def renderLines_node : Node → List String
  | Node.code v => ["    " ++ v]
  | Node.block k body =>
    if k = "class" then
      match body with
      | Node.code name :: rest =>
        ("public class " ++ name ++ " \x7b") :: renderLines_list rest ++ ["\x7d"]
      | _ => []
    else if k = "def" then
      match body with
      | Node.code name :: rest =>
        ("    public void " ++ name ++ "() \x7b") :: renderLines_list rest ++ ["    \x7d"]
      | _ => []
    else if k = "if" then
      match body with
      | Node.code cond :: rest =>
        ("    if (" ++ cond ++ ") \x7b") :: renderLines_list rest ++ ["    \x7d"]
      | _ => []
    else if k = "while" then
      match body with
      | Node.code cond :: rest =>
        ("    while (" ++ cond ++ ") \x7b") :: renderLines_list rest ++ ["    \x7d"]
      | _ => []
    else []

/-- `renderLines_node` over a list of nodes, concatenated in order. -/
def renderLines_list : List Node → List String
  | [] => []
  | n :: ns => renderLines_node n ++ renderLines_list ns

end

mutual

/-- Structural induction for the nested inductive `Node`: the block case
receives the list-level hypothesis both for the whole body and for its tail
(the children actually rendered). -/
def nodeIndAux (P : Node → Prop) (Q : List Node → Prop)
    (hcode : ∀ v, P (Node.code v))
    (hblock : ∀ k body, Q body → Q body.tail → P (Node.block k body))
    (hnil : Q [])
    (hcons : ∀ n l, P n → Q l → Q (n :: l)) : ∀ n : Node, P n
  | Node.code v => hcode v
  | Node.block k [] => hblock k [] hnil hnil
  | Node.block k (b0 :: rest) =>
    hblock k (b0 :: rest)
      (listIndAux P Q hcode hblock hnil hcons (b0 :: rest))
      (listIndAux P Q hcode hblock hnil hcons rest)

/-- List-level part of the structural induction for `Node`. -/
def listIndAux (P : Node → Prop) (Q : List Node → Prop)
    (hcode : ∀ v, P (Node.code v))
    (hblock : ∀ k body, Q body → Q body.tail → P (Node.block k body))
    (hnil : Q [])
    (hcons : ∀ n l, P n → Q l → Q (n :: l)) : ∀ l : List Node, Q l
  | [] => hnil
  | n :: ns =>
    hcons n ns (nodeIndAux P Q hcode hblock hnil hcons n)
      (listIndAux P Q hcode hblock hnil hcons ns)

end

/-- Packaged structural induction principle over nodes and forests. -/
def nodeInduction (P : Node → Prop) (Q : List Node → Prop)
    (hcode : ∀ v, P (Node.code v))
    (hblock : ∀ k body, Q body → Q body.tail → P (Node.block k body))
    (hnil : Q [])
    (hcons : ∀ n l, P n → Q l → Q (n :: l)) :
    (∀ n, P n) ∧ (∀ l, Q l) :=
  ⟨fun n => nodeIndAux P Q hcode hblock hnil hcons n,
   fun l => listIndAux P Q hcode hblock hnil hcons l⟩

end ConvertRuby

namespace ConvertRuby

/-- C1 counterexample: the pipeline output for the Greeter example indents the
body line `puts` with 4 spaces, not the 8 spaces the claim states, so the
claimed rendered output differs from the actual one. -/
theorem C1_counterexample :
    transpile_ruby ("class Greeter\ndef hello\nputs\nend\nend") =
      some ("public class Greeter \x7b\n    public void hello() \x7b\n    puts\n    \x7d\n\x7d\n") ∧
    some ("public class Greeter \x7b\n    public void hello() \x7b\n    puts\n    \x7d\n\x7d\n") ≠
      some ("public class Greeter \x7b\n    public void hello() \x7b\n        puts\n    \x7d\n\x7d\n") :=
  ⟨rfl, by decide⟩

/-- C1 (amended): for the input string of the end-to-end example, the parser
produces exactly one top-level class node with body fragment Greeter followed
by one def node named hello containing the single code fragment puts, and the
rendered output is the five lines with `    puts` indented by 4 spaces
(the renderer indents every code fragment by exactly 4 spaces, never 8). -/
theorem C1_theorem :
    parse_tokens (tokenize_ruby_code ("class Greeter\ndef hello\nputs\nend\nend")) =
      some [Node.block ("class") [Node.code ("Greeter"),
        Node.block ("def") [Node.code ("hello"), Node.code ("puts")]]] ∧
    transpile_ruby ("class Greeter\ndef hello\nputs\nend\nend") =
      some ("public class Greeter \x7b\n    public void hello() \x7b\n    puts\n    \x7d\n\x7d\n") :=
  ⟨rfl, rfl⟩

/-- C2: on the token `end` the parser pops the top block of the stack; if the
stack remains non-empty the popped node is appended as the last child of the
new top, and if the stack becomes empty the popped node is appended to the
Forest; parsing "class Foo def bar end end" yields exactly one top-level
class node whose body is the code fragment Foo followed by a def node. -/
theorem C2_theorem :
    (∀ (ast : List Node) (k : String) (b : List Node) (k2 : String) (b2 : List Node)
        (rest : List (String × List Node)),
      parseStep (ast, (k, b) :: (k2, b2) :: rest) ("end") =
        some (ast, (k2, b2 ++ [Node.block k b]) :: rest)) ∧
    (∀ (ast : List Node) (k : String) (b : List Node),
      parseStep (ast, [(k, b)]) ("end") = some (ast ++ [Node.block k b], [])) ∧
    parse_tokens (tokenize_ruby_code ("class Foo def bar end end")) =
      some [Node.block ("class") [Node.code ("Foo"), Node.block ("def") [Node.code ("bar")]]] :=
  ⟨fun _ _ _ _ _ _ => rfl, fun _ _ _ => rfl, rfl⟩

/-- C3: when the input ends, whatever block nodes remain on the stack are
discarded — the parser returns the accumulated forest unchanged — and
parsing "class Foo def bar" (no matching ends) returns the empty Forest. -/
theorem C3_theorem :
    (∀ (ast : List Node) (stack : List (String × List Node)),
      parseAux [] (ast, stack) = some ast) ∧
    parse_tokens (tokenize_ruby_code ("class Foo def bar")) = some [] :=
  ⟨fun _ _ => rfl, rfl⟩

/-- C5: a block node whose kind is else, elsif or do renders to no output at
all — the renderer has no branch for these kinds, so neither the node nor
its subtree contributes characters, and a Forest containing only such a node
renders to the empty string. -/
theorem C5_theorem (k : String) (body : List Node)
    (h : k = "else" ∨ k = "elsif" ∨ k = "do") :
    transpile_node (Node.block k body) = some "" ∧
    transpile_to_csharp [Node.block k body] = some "" := by
  rcases h with h | h | h <;> subst h <;> exact ⟨rfl, rfl⟩

/-- C5 witness: the theorem applied to an `else` node with a non-empty body. -/
theorem C5_witness :
    transpile_node (Node.block ("else") [Node.code ("x")]) = some "" ∧
    transpile_to_csharp [Node.block ("else") [Node.code ("x")]] = some "" :=
  C5_theorem ("else") [Node.code ("x")] (Or.inl rfl)

/-- C7 counterexample: rendering the def node of the Greeter example produces
the body line `    puts` with 4 leading spaces, not 8. -/
theorem C7_counterexample :
    transpile_node (Node.block ("def") [Node.code ("hello"), Node.code ("puts")]) =
      some ("    public void hello() \x7b\n    puts\n    \x7d\n") ∧
    splitLines ("    public void hello() \x7b\n    puts\n    \x7d\n") =
      ["    public void hello() \x7b", "    puts", "    \x7d", ""] ∧
    leadingSpaces ("    puts") ≠ 8 :=
  ⟨rfl, rfl, by decide⟩

/-- C6 counterexample: a class node nested inside a def body renders its header
line `public class C \x7b` with zero leading spaces, so not every
non-top-level statement line is indented by exactly 4 spaces. -/
theorem C6_counterexample :
    transpile_to_csharp [Node.block ("def") [Node.code ("f"),
        Node.block ("class") [Node.code ("C")]]] =
      some ("    public void f() \x7b\npublic class C \x7b\n\x7d\n    \x7d\n") ∧
    splitLines ("    public void f() \x7b\npublic class C \x7b\n\x7d\n    \x7d\n") =
      ["    public void f() \x7b", "public class C \x7b", "\x7d", "    \x7d", ""] ∧
    leadingSpaces ("public class C \x7b") ≠ 4 :=
  ⟨rfl, rfl, by decide⟩


theorem leadingSpacesAux_clean (l : List Char)
    (h : l.all (fun c => !isPySpace c) = true) : leadingSpacesAux l = 0 := by
  cases l with
  | nil => rfl
  | cons c cs =>
    have hc : isPySpace c = false := by
      rw [List.all_cons] at h
      simpa using (Bool.and_eq_true_iff.mp h).1
    have hc32 : c.toNat ≠ 32 := by
      intro hcontra
      simp [isPySpace, hcontra] at hc
    simp [leadingSpacesAux, hc32]

theorem leadingSpaces_four_prefix (v : String) (h : cleanStr v = true) :
    leadingSpaces ("    " ++ v) = 4 := by
  have hdata : ("    " ++ v).data = ("    ").data ++ v.data := rfl
  have h0 : leadingSpacesAux v.data = 0 := leadingSpacesAux_clean v.data h
  simp [leadingSpaces, hdata, leadingSpacesAux, h0]

/-- C7 (amended): every code fragment renders as its value prefixed by exactly
4 spaces wherever it occurs, a def node renders its header at 4 spaces and
its body children unchanged (so body lines of code fragments carry exactly 4
spaces, not 8), independent of nesting depth. -/
theorem C7_theorem :
    (∀ v : String, transpile_node (Node.code v) = some ("    " ++ v ++ "\n")) ∧
    (∀ (name : String) (rest : List Node),
      transpile_node (Node.block ("def") (Node.code name :: rest)) =
        (transpile_list rest).map
          (fun s => "    public void " ++ name ++ "() \x7b\n" ++ s ++ "    \x7d\n")) ∧
    (∀ v : String, cleanStr v = true → leadingSpaces ("    " ++ v) = 4) := by
  refine ⟨fun v => rfl, fun name rest => ?_, fun v h => leadingSpaces_four_prefix v h⟩
  cases hr : transpile_list rest with
  | none => simp [transpile_node, hr]
  | some s =>
    simp only [transpile_node, hr, Option.map]
    rfl

/-- C7 witness: the amended theorem applied to the fragment `puts`. -/
theorem C7_witness :
    transpile_node (Node.code ("puts")) = some ("    " ++ "puts" ++ "\n") ∧
    leadingSpaces ("    " ++ "puts") = 4 :=
  ⟨C7_theorem.1 ("puts"), C7_theorem.2.2 ("puts") rfl⟩

end ConvertRuby

namespace ConvertRuby

theorem parseAux_isSome (ts : List String) :
    ∀ (ast : List Node) (stack : List (String × List Node)),
      (parseAux ts (ast, stack)).isSome = depthOk ts stack.length := by
  induction ts with
  | nil => intro ast stack; rfl
  | cons t ts ih =>
    intro ast stack
    by_cases hb : isBlockKeyword t = true
    · simp [parseAux, parseStep, hb, depthOk, ih]
    · by_cases he : t = "end"
      · subst he
        cases stack with
        | nil => simp [parseAux, parseStep, hb, depthOk]
        | cons top rest =>
          obtain ⟨k, b⟩ := top
          cases rest with
          | nil => simp [parseAux, parseStep, hb, depthOk, ih]
          | cons top2 rest2 =>
            obtain ⟨k2, b2⟩ := top2
            simp [parseAux, parseStep, hb, depthOk, ih]
      · cases stack with
        | nil => simp [parseAux, parseStep, hb, he, depthOk, ih]
        | cons top rest =>
          obtain ⟨k, b⟩ := top
          simp [parseAux, parseStep, hb, he, depthOk, ih]

/-- C4: parsing returns a Forest exactly when every `end` token finds a
non-empty stack (tracked by the depth counter `depthOk`); an `end` on an
empty stack makes the whole parse fail (`none`, the fatal IndexError), never
returning a corrupted Forest; in particular parsing ["end"] fails. -/
theorem C4_theorem :
    (∀ tokens : List String, (parse_tokens tokens).isSome = depthOk tokens 0) ∧
    parse_tokens ["end"] = none :=
  ⟨fun tokens => parseAux_isSome tokens [] [], rfl⟩

end ConvertRuby

namespace ConvertRuby

theorem transpile_node_other_kind (k : String) (body : List Node) (h1 : ¬ k = "class")
    (h2 : ¬ k = "def") (h3 : ¬ k = "if") (h4 : ¬ k = "while") :
    transpile_node (Node.block k body) = some "" := by
  unfold transpile_node
  rw [if_neg h1, if_neg h2, if_neg h3, if_neg h4]

theorem transpile_block_isSome (k : String) (body : List Node)
    (htail : goodList body.tail = true → (transpile_list body.tail).isSome = true)
    (h : goodNode (Node.block k body) = true) :
    (transpile_node (Node.block k body)).isSome = true := by
  simp only [goodNode, Bool.and_eq_true] at h
  obtain ⟨hhead, hlist⟩ := h
  by_cases h1 : k = "class"
  · rw [h1] at hhead ⊢
    simp at hhead
    cases body with
    | nil => simp [headIsCode] at hhead
    | cons b0 rest =>
      cases b0 with
      | block k2 b2 => simp [headIsCode] at hhead
      | code name =>
        simp only [goodList, Bool.and_eq_true] at hlist
        have hrest : (transpile_list rest).isSome = true := htail hlist.2
        cases htl : transpile_list rest with
        | none => rw [htl] at hrest; simp at hrest
        | some s => simp [transpile_node, htl]
  by_cases h2 : k = "def"
  · rw [h2] at hhead ⊢
    simp at hhead
    cases body with
    | nil => simp [headIsCode] at hhead
    | cons b0 rest =>
      cases b0 with
      | block k2 b2 => simp [headIsCode] at hhead
      | code name =>
        simp only [goodList, Bool.and_eq_true] at hlist
        have hrest : (transpile_list rest).isSome = true := htail hlist.2
        cases htl : transpile_list rest with
        | none => rw [htl] at hrest; simp at hrest
        | some s => simp [transpile_node, htl]
  by_cases h3 : k = "if"
  · rw [h3] at hhead ⊢
    simp at hhead
    cases body with
    | nil => simp [headIsCode] at hhead
    | cons b0 rest =>
      cases b0 with
      | block k2 b2 => simp [headIsCode] at hhead
      | code name =>
        simp only [goodList, Bool.and_eq_true] at hlist
        have hrest : (transpile_list rest).isSome = true := htail hlist.2
        cases htl : transpile_list rest with
        | none => rw [htl] at hrest; simp at hrest
        | some s => simp [transpile_node, htl]
  by_cases h4 : k = "while"
  · rw [h4] at hhead ⊢
    simp at hhead
    cases body with
    | nil => simp [headIsCode] at hhead
    | cons b0 rest =>
      cases b0 with
      | block k2 b2 => simp [headIsCode] at hhead
      | code name =>
        simp only [goodList, Bool.and_eq_true] at hlist
        have hrest : (transpile_list rest).isSome = true := htail hlist.2
        cases htl : transpile_list rest with
        | none => rw [htl] at hrest; simp at hrest
        | some s => simp [transpile_node, htl]
  rw [transpile_node_other_kind k body h1 h2 h3 h4]
  rfl

theorem transpile_total_of_good :
    (∀ n, goodNode n = true → (transpile_node n).isSome = true) ∧
    (∀ l, goodList l = true → (transpile_list l).isSome = true) := by
  apply nodeInduction
  · intro v _
    rfl
  · intro k body _ IHtail h
    exact transpile_block_isSome k body IHtail h
  · intro _
    rfl
  · intro n l IHn IHl h
    simp only [goodList, Bool.and_eq_true] at h
    have hn := IHn h.1
    have hl := IHl h.2
    cases h1 : transpile_node n with
    | none => rw [h1] at hn; simp at hn
    | some s =>
      cases h2 : transpile_list l with
      | none => rw [h2] at hl; simp at hl
      | some t => simp [transpile_list, h1, h2]


/-- C10 (amended): rendering a class, def, if or while node with an empty body
fails (the first body element is read unconditionally); rendering is total
on forests where every such node's body starts with a code fragment; and the
empty-body case is reachable from the pipeline — parsing "class end" yields
a class node with empty body whose rendering fails. -/
theorem C10_theorem :
    (∀ k : String, (k = "class" ∨ k = "def" ∨ k = "if" ∨ k = "while") →
      transpile_node (Node.block k []) = none) ∧
    (∀ forest : List Node, goodList forest = true →
      (transpile_to_csharp forest).isSome = true) ∧
    parse_tokens (tokenize_ruby_code ("class end")) = some [Node.block ("class") []] ∧
    transpile_to_csharp [Node.block ("class") []] = none := by
  refine ⟨?_, ?_, rfl, rfl⟩
  · intro k h
    rcases h with h | h | h | h <;> subst h <;> rfl
  · intro forest h
    exact transpile_total_of_good.2 forest h

/-- C10 witness: the amended theorem applied to the kind class with an empty
body, and to the renderable singleton forest of one code fragment. -/
theorem C10_witness :
    transpile_node (Node.block ("class") []) = none ∧
    (transpile_to_csharp [Node.code ("x")]).isSome = true :=
  ⟨C10_theorem.1 ("class") (Or.inl rfl), C10_theorem.2.1 [Node.code ("x")] rfl⟩

/-- C10 counterexample: a forest in which every class/def/if/while node has a
non-empty body (the claim's stated precondition) whose rendering still fails,
because the first body element of the class node is a block node and reading
its value key raises KeyError. -/
theorem C10_counterexample :
    nonemptyBodiesList [Node.block ("class") [Node.block ("def") [Node.code ("x")]]] = true ∧
    transpile_to_csharp [Node.block ("class") [Node.block ("def") [Node.code ("x")]]] = none :=
  ⟨rfl, rfl⟩

end ConvertRuby

namespace ConvertRuby

theorem not_pyspace_of_identChar (c : Char) (h : isIdentChar c = true) :
    isPySpace c = false := by
  simp [isIdentChar, isIdentStart] at h
  simp [isPySpace]
  omega

theorem identChar_of_identStart (c : Char) (h : isIdentStart c = true) :
    isIdentChar c = true := by
  simp [isIdentChar, h]

theorem joinData_foldl (l : List String) : ∀ s0 : String,
    (l.foldl (fun r s => r ++ s) s0).data = s0.data ++ (l.map String.data).flatten := by
  induction l with
  | nil => intro s0; simp
  | cons x xs ih =>
    intro s0
    simp [List.foldl_cons, ih, String.data_append, List.append_assoc]

theorem join_data (l : List String) :
    (String.join l).data = (l.map String.data).flatten := by
  have h := joinData_foldl l ""
  simpa [String.join] using h

theorem tokenizeAux_concat (cs : List Char) : ∀ acc : List Char,
    ((tokenizeAux acc cs).map String.data).flatten =
      acc ++ cs.filter (fun c => !isPySpace c) := by
  induction cs with
  | nil =>
    intro acc
    cases acc with
    | nil => rfl
    | cons a as => simp [tokenizeAux]
  | cons c cs ih =>
    intro acc
    cases acc with
    | nil =>
      by_cases h1 : isIdentStart c = true
      · have hns : isPySpace c = false :=
          not_pyspace_of_identChar c (identChar_of_identStart c h1)
        simp [tokenizeAux, h1, ih, List.filter_cons, hns]
      · by_cases h2 : isPySpace c = true
        · simp [tokenizeAux, h1, h2, ih, List.filter_cons]
        · simp at h2
          simp [tokenizeAux, h1, h2, ih, List.filter_cons]
    | cons a as =>
      by_cases h1 : isIdentChar c = true
      · have hns : isPySpace c = false := not_pyspace_of_identChar c h1
        simp [tokenizeAux, h1, ih, List.filter_cons, hns, List.append_assoc]
      · by_cases h2 : isPySpace c = true
        · simp [tokenizeAux, h1, h2, ih, List.filter_cons]
        · simp at h2
          simp [tokenizeAux, h1, h2, ih, List.filter_cons]

theorem tokenizeAux_tokens_ne (cs : List Char) : ∀ (acc : List Char) (t : String),
    t ∈ tokenizeAux acc cs → t.data ≠ [] := by
  induction cs with
  | nil =>
    intro acc t ht
    cases acc with
    | nil => simp [tokenizeAux] at ht
    | cons a as =>
      simp [tokenizeAux] at ht
      subst ht
      simp
  | cons c cs ih =>
    intro acc t ht
    cases acc with
    | nil =>
      by_cases h1 : isIdentStart c = true
      · simp only [tokenizeAux] at ht
        simp [h1] at ht
        exact ih [c] t ht
      · by_cases h2 : isPySpace c = true
        · simp only [tokenizeAux] at ht
          simp [h1, h2] at ht
          exact ih [] t ht
        · simp only [tokenizeAux] at ht
          simp [h1, h2] at ht
          rcases ht with ht | ht
          · subst ht; simp
          · exact ih [] t ht
    | cons a as =>
      by_cases h1 : isIdentChar c = true
      · simp only [tokenizeAux] at ht
        simp [h1] at ht
        exact ih ((a :: as) ++ [c]) t ht
      · by_cases h2 : isPySpace c = true
        · simp only [tokenizeAux] at ht
          simp [h1, h2] at ht
          rcases ht with ht | ht
          · subst ht; simp
          · exact ih [] t ht
        · simp only [tokenizeAux] at ht
          simp [h1, h2] at ht
          rcases ht with ht | ht | ht
          · subst ht; simp
          · subst ht; simp
          · exact ih [] t ht

/-- C9: concatenating the lexer's tokens in order reconstructs the input with
all whitespace characters removed, and no emitted token is the empty string. -/
theorem C9_theorem : ∀ s : String,
    String.join (tokenize_ruby_code s) =
      String.mk (s.data.filter (fun c => !isPySpace c)) ∧
    ∀ t ∈ tokenize_ruby_code s, t ≠ "" := by
  intro s
  constructor
  · apply String.ext
    rw [join_data]
    exact tokenizeAux_concat s.data []
  · intro t ht hcontra
    have := tokenizeAux_tokens_ne s.data [] t ht
    subst hcontra
    exact this rfl

/-- C9 witness: the theorem applied to the input "if x > 1\nend". -/
theorem C9_witness :
    String.join (tokenize_ruby_code ("if x > 1\nend")) =
      String.mk (String.data ("if x > 1\nend") |>.filter (fun c => !isPySpace c)) ∧
    "if" ≠ "" :=
  ⟨(C9_theorem ("if x > 1\nend")).1,
   (C9_theorem ("if x > 1\nend")).2 ("if") (by decide)⟩

end ConvertRuby

namespace ConvertRuby

theorem identStart_false_of_identChar_false (c : Char) (h : isIdentChar c = false) :
    isIdentStart c = false := by
  by_contra hc
  simp only [Bool.not_eq_false] at hc
  exact absurd (identChar_of_identStart c hc) (by simp [h])

theorem tokenizeAux_spec (n : Nat) : ∀ cs : List Char, cs.length ≤ n →
    (tokenizeAux [] cs = tokenizeSpecAmended cs ∧
     ∀ acc : List Char, acc ≠ [] → tokenizeAux acc cs =
       String.mk (acc ++ cs.takeWhile isIdentChar) ::
         tokenizeSpecAmended (cs.dropWhile isIdentChar)) := by
  induction n with
  | zero =>
    intro cs hlen
    have hcs : cs = [] := List.eq_nil_of_length_eq_zero (Nat.le_zero.mp hlen)
    subst hcs
    constructor
    · simp [tokenizeAux, tokenizeSpecAmended]
    · intro acc hacc
      simp [tokenizeAux, tokenizeSpecAmended, hacc]
  | succ n ih =>
    intro cs hlen
    cases cs with
    | nil =>
      constructor
      · simp [tokenizeAux, tokenizeSpecAmended]
      · intro acc hacc
        simp [tokenizeAux, tokenizeSpecAmended, hacc]
    | cons c cs2 =>
      have hlen2 : cs2.length ≤ n := by simpa using hlen
      obtain ⟨ih1, ih2⟩ := ih cs2 hlen2
      constructor
      · by_cases h1 : isIdentStart c = true
        · rw [show tokenizeAux [] (c :: cs2) = tokenizeAux [c] cs2 by
            simp [tokenizeAux, h1]]
          rw [ih2 [c] (by simp)]
          simp [tokenizeSpecAmended, h1]
        · by_cases h2 : isPySpace c = true
          · rw [show tokenizeAux [] (c :: cs2) = tokenizeAux [] cs2 by
              simp [tokenizeAux, h1, h2]]
            rw [ih1]
            simp [tokenizeSpecAmended, h1, h2]
          · rw [show tokenizeAux [] (c :: cs2) = String.mk [c] :: tokenizeAux [] cs2 by
              simp [tokenizeAux, h1, h2]]
            rw [ih1]
            simp [tokenizeSpecAmended, h1, h2]
      · intro acc hacc
        have hne : acc.isEmpty = false := by
          cases acc with
          | nil => exact absurd rfl hacc
          | cons a as => rfl
        by_cases h1 : isIdentChar c = true
        · rw [show tokenizeAux acc (c :: cs2) = tokenizeAux (acc ++ [c]) cs2 by
            simp [tokenizeAux, hne, h1]]
          rw [ih2 (acc ++ [c]) (by simp)]
          simp [List.takeWhile_cons, List.dropWhile_cons, h1, List.append_assoc]
        · have hns : isIdentStart c = false := identStart_false_of_identChar_false c (by simpa using h1)
          by_cases h2 : isPySpace c = true
          · rw [show tokenizeAux acc (c :: cs2) = String.mk acc :: tokenizeAux [] cs2 by
              simp [tokenizeAux, hne, h1, h2]]
            rw [ih1]
            simp [tokenizeSpecAmended, List.takeWhile_cons, List.dropWhile_cons, h1, h2, hns]
          · rw [show tokenizeAux acc (c :: cs2) =
                String.mk acc :: String.mk [c] :: tokenizeAux [] cs2 by
              simp [tokenizeAux, hne, h1, h2]]
            rw [ih1]
            simp [tokenizeSpecAmended, List.takeWhile_cons, List.dropWhile_cons, h1, h2, hns]

theorem tokenizeAux_tokens_nospace (cs : List Char) : ∀ acc : List Char,
    (∀ c ∈ acc, isPySpace c = false) →
    ∀ t ∈ tokenizeAux acc cs, ∀ c ∈ t.data, isPySpace c = false := by
  induction cs with
  | nil =>
    intro acc hacc t ht c hc
    cases acc with
    | nil => simp [tokenizeAux] at ht
    | cons a as =>
      simp [tokenizeAux] at ht
      subst ht
      exact hacc c hc
  | cons c0 cs ih =>
    intro acc hacc t ht c hc
    cases acc with
    | nil =>
      by_cases h1 : isIdentStart c0 = true
      · simp only [tokenizeAux] at ht
        simp [h1] at ht
        refine ih [c0] ?_ t ht c hc
        intro x hx
        have hx2 : x = c0 := by simpa using hx
        subst hx2
        exact not_pyspace_of_identChar x (identChar_of_identStart x h1)
      · by_cases h2 : isPySpace c0 = true
        · simp only [tokenizeAux] at ht
          simp [h1, h2] at ht
          exact ih [] (by simp) t ht c hc
        · simp only [tokenizeAux] at ht
          simp [h1, h2] at ht
          rcases ht with ht | ht
          · subst ht
            have hc2 : c = c0 := by simpa using hc
            subst hc2
            simpa using h2
          · exact ih [] (by simp) t ht c hc
    | cons a as =>
      by_cases h1 : isIdentChar c0 = true
      · simp only [tokenizeAux] at ht
        simp [h1] at ht
        refine ih ((a :: as) ++ [c0]) ?_ t ht c hc
        intro x hx
        rcases List.mem_append.mp hx with hx | hx
        · exact hacc x hx
        · have hx2 : x = c0 := by simpa using hx
          subst hx2
          exact not_pyspace_of_identChar x h1
      · by_cases h2 : isPySpace c0 = true
        · simp only [tokenizeAux] at ht
          simp [h1, h2] at ht
          rcases ht with ht | ht
          · subst ht
            exact hacc c hc
          · exact ih [] (by simp) t ht c hc
        · simp only [tokenizeAux] at ht
          simp [h1, h2] at ht
          rcases ht with ht | ht | ht
          · subst ht
            exact hacc c hc
          · subst ht
            have hc2 : c = c0 := by simpa using hc
            subst hc2
            simpa using h2
          · exact ih [] (by simp) t ht c hc

/-- C8 (amended): the lexer agrees with the reference scanner whose runs are
maximal `[A-Za-z0-9_]` runs that must start with a letter or underscore
(other non-whitespace characters, digits included, are single-character
tokens), every token is non-empty, and no token contains whitespace. -/
theorem C8_theorem : ∀ s : String,
    tokenize_ruby_code s = tokenizeSpecAmended s.data ∧
    ∀ t ∈ tokenize_ruby_code s, t ≠ "" ∧ ∀ c ∈ t.data, isPySpace c = false := by
  intro s
  constructor
  · exact (tokenizeAux_spec s.data.length s.data le_rfl).1
  · intro t ht
    refine ⟨?_, tokenizeAux_tokens_nospace s.data [] (by simp) t ht⟩
    intro hcontra
    have hne := tokenizeAux_tokens_ne s.data [] t ht
    subst hcontra
    exact hne rfl

/-- C8 witness: the amended theorem applied to the input "a1 +" and its first
token "a1". -/
theorem C8_witness :
    tokenize_ruby_code ("a1 +") = tokenizeSpecAmended (String.data ("a1 +")) ∧
    ("a1" ≠ "" ∧ ∀ c ∈ String.data ("a1"), isPySpace c = false) :=
  ⟨(C8_theorem ("a1 +")).1, (C8_theorem ("a1 +")).2 ("a1") (by decide)⟩

/-- C8 counterexample: the input "55" tokenizes to two single-digit tokens
although the claim's maximal-alphabet-run lexer would produce the single
token "55" — a digit cannot start an identifier run in the regex. -/
theorem C8_counterexample :
    tokenize_ruby_code ("55") = ["5", "5"] ∧
    tokenizeClaimRuns (String.data ("55")) = ["55"] ∧
    (["5", "5"] : List String) ≠ ["55"] :=
  ⟨rfl, by simp [tokenizeClaimRuns, isIdentChar, isIdentStart, isPySpace], by decide⟩

end ConvertRuby

namespace ConvertRuby

theorem joinLines_append (xs : List String) : ∀ ys : List String,
    joinLines (xs ++ ys) = joinLines xs ++ joinLines ys := by
  induction xs with
  | nil => intro ys; simp [joinLines]
  | cons x xs ih =>
    intro ys
    simp [joinLines, ih, String.append_assoc]

theorem clean_no_nl (v : String) (hv : cleanStr v = true) :
    ∀ c ∈ v.data, c.toNat ≠ 10 := by
  intro c hc
  have h2 : isPySpace c = false := by
    simpa using List.all_eq_true.mp hv c hc
  simp [isPySpace] at h2
  omega

theorem no_nl_three (A v B : String)
    (hA : ∀ c ∈ A.data, c.toNat ≠ 10) (hB : ∀ c ∈ B.data, c.toNat ≠ 10)
    (hv : cleanStr v = true) : ∀ c ∈ ((A ++ v) ++ B).data, c.toNat ≠ 10 := by
  intro c hc
  rw [String.data_append, String.data_append] at hc
  rcases List.mem_append.mp hc with hc | hc
  · rcases List.mem_append.mp hc with hc | hc
    · exact hA c hc
    · exact clean_no_nl v hv c hc
  · exact hB c hc

theorem leadingSpacesAux_append (l1 : List Char) : ∀ l2 : List Char,
    leadingSpacesAux l1 < l1.length →
    leadingSpacesAux (l1 ++ l2) = leadingSpacesAux l1 := by
  induction l1 with
  | nil => intro l2 h; simp [leadingSpacesAux] at h
  | cons a l ih =>
    intro l2 h
    by_cases ha : a.toNat = 32
    · simp only [leadingSpacesAux, if_pos ha, List.length_cons] at h
      simp only [List.cons_append, leadingSpacesAux, if_pos ha]
      show leadingSpacesAux (l ++ l2) + 1 = leadingSpacesAux l + 1
      rw [ih l2 (by omega)]
    · simp only [List.cons_append, leadingSpacesAux, if_neg ha]

theorem leadingSpaces_header (A mid post : String)
    (h : leadingSpacesAux A.data < A.data.length) :
    leadingSpaces ((A ++ mid) ++ post) = leadingSpacesAux A.data := by
  unfold leadingSpaces
  rw [String.data_append, String.data_append, List.append_assoc]
  exact leadingSpacesAux_append A.data _ h

theorem splitLinesAux_run (ld : List Char) : ∀ (cur rest : List Char) (nl : Char),
    nl.toNat = 10 → (∀ c ∈ ld, c.toNat ≠ 10) →
    splitLinesAux cur (ld ++ nl :: rest) =
      String.mk (cur ++ ld) :: splitLinesAux [] rest := by
  induction ld with
  | nil =>
    intro cur rest nl hnl _
    simp [splitLinesAux, hnl]
  | cons d ds ih =>
    intro cur rest nl hnl hld
    have hd : d.toNat ≠ 10 := hld d (by simp)
    simp only [List.cons_append, splitLinesAux, if_neg hd]
    show splitLinesAux (cur ++ [d]) (ds ++ nl :: rest) = String.mk (cur ++ d :: ds) :: splitLinesAux [] rest
    rw [ih (cur ++ [d]) rest nl hnl (fun c hc => hld c (by simp [hc]))]
    simp [List.append_assoc]

theorem splitLines_joinLines (L : List String)
    (h : ∀ line ∈ L, ∀ c ∈ line.data, c.toNat ≠ 10) :
    splitLines (joinLines L) = L ++ [""] := by
  induction L with
  | nil => rfl
  | cons l ls ih =>
    have hnl : ("\n" : String).data = [Char.ofNat 10] := rfl
    unfold splitLines
    rw [show joinLines (l :: ls) = (l ++ "\n") ++ joinLines ls by
      simp [joinLines, String.append_assoc]]
    rw [String.data_append, String.data_append, hnl, List.append_assoc,
      List.singleton_append]
    rw [splitLinesAux_run l.data [] (joinLines ls).data (Char.ofNat 10) (by decide)
      (h l (by simp))]
    have hmk : String.mk ([] ++ l.data) = l := rfl
    rw [hmk]
    have ih2 := ih (fun line hl => h line (by simp [hl]))
    unfold splitLines at ih2
    rw [ih2]
    simp

end ConvertRuby

namespace ConvertRuby

theorem renderLines_other_kind (k : String) (body : List Node) (h1 : ¬ k = "class")
    (h2 : ¬ k = "def") (h3 : ¬ k = "if") (h4 : ¬ k = "while") :
    renderLines_node (Node.block k body) = [] := by
  unfold renderLines_node
  rw [if_neg h1, if_neg h2, if_neg h3, if_neg h4]

theorem joinLines_class (name : String) (L : List String) :
    kwTable ("class") ++ " " ++ name ++ " \x7b\n" ++ joinLines L ++ "\x7d\n" =
    joinLines (("public class " ++ name ++ " \x7b") :: L ++ ["\x7d"]) := by
  apply String.ext
  rw [show (kwTable ("class") : String) = "public class" from rfl]
  simp [joinLines, joinLines_append, String.data_append, List.append_assoc]

theorem joinLines_def (name : String) (L : List String) :
    "    " ++ kwTable ("def") ++ " " ++ name ++ "() \x7b\n" ++ joinLines L ++ "    \x7d\n" =
    joinLines (("    public void " ++ name ++ "() \x7b") :: L ++ ["    \x7d"]) := by
  apply String.ext
  rw [show (kwTable ("def") : String) = "public void" from rfl]
  simp [joinLines, joinLines_append, String.data_append, List.append_assoc]

theorem joinLines_ifkind (cond : String) (L : List String) :
    "    " ++ kwTable ("if") ++ " (" ++ cond ++ ") \x7b\n" ++ joinLines L ++ "    \x7d\n" =
    joinLines (("    if (" ++ cond ++ ") \x7b") :: L ++ ["    \x7d"]) := by
  apply String.ext
  rw [show (kwTable ("if") : String) = "if" from rfl]
  simp [joinLines, joinLines_append, String.data_append, List.append_assoc]

theorem joinLines_whilekind (cond : String) (L : List String) :
    "    " ++ kwTable ("while") ++ " (" ++ cond ++ ") \x7b\n" ++ joinLines L ++ "    \x7d\n" =
    joinLines (("    while (" ++ cond ++ ") \x7b") :: L ++ ["    \x7d"]) := by
  apply String.ext
  rw [show (kwTable ("while") : String) = "while" from rfl]
  simp [joinLines, joinLines_append, String.data_append, List.append_assoc]

theorem transpile_renderLines :
    (∀ n : Node, ∀ s : String, transpile_node n = some s →
      s = joinLines (renderLines_node n)) ∧
    (∀ l : List Node, ∀ s : String, transpile_list l = some s →
      s = joinLines (renderLines_list l)) := by
  apply nodeInduction
  · intro v s h
    have h2 : ("    " ++ v ++ "\n") = s := by simpa [transpile_node] using h
    rw [← h2]
    apply String.ext
    simp [renderLines_node, joinLines, String.data_append, List.append_assoc]
  · intro k body IH IHtail s h
    by_cases h1 : k = "class"
    · rw [h1] at h ⊢
      cases body with
      | nil => simp [transpile_node] at h
      | cons b0 rest =>
        cases b0 with
        | block k2 b2 => simp [transpile_node] at h
        | code name =>
          cases htl : transpile_list rest with
          | none => simp [transpile_node, htl] at h
          | some t =>
            have ht2 : t = joinLines (renderLines_list rest) := IHtail t htl
            have hval : transpile_node (Node.block ("class") (Node.code name :: rest)) =
                some (kwTable ("class") ++ " " ++ name ++ " \x7b\n" ++ t ++ "\x7d\n") := by
              simp [transpile_node, htl]
            rw [hval] at h
            have hs := Option.some.inj h
            rw [← hs, ht2]
            rw [show renderLines_node (Node.block ("class") (Node.code name :: rest)) =
                ("public class " ++ name ++ " \x7b") :: renderLines_list rest ++ ["\x7d"] by
              simp [renderLines_node]]
            exact joinLines_class name (renderLines_list rest)
    · by_cases h2 : k = "def"
      · rw [h2] at h ⊢
        cases body with
        | nil => simp [transpile_node] at h
        | cons b0 rest =>
          cases b0 with
          | block k2 b2 => simp [transpile_node] at h
          | code name =>
            cases htl : transpile_list rest with
            | none => simp [transpile_node, htl] at h
            | some t =>
              have ht2 : t = joinLines (renderLines_list rest) := IHtail t htl
              have hval : transpile_node (Node.block ("def") (Node.code name :: rest)) =
                  some ("    " ++ kwTable ("def") ++ " " ++ name ++ "() \x7b\n" ++ t ++ "    \x7d\n") := by
                simp [transpile_node, htl]
              rw [hval] at h
              have hs := Option.some.inj h
              rw [← hs, ht2]
              rw [show renderLines_node (Node.block ("def") (Node.code name :: rest)) =
                  ("    public void " ++ name ++ "() \x7b") :: renderLines_list rest ++ ["    \x7d"] by
                simp [renderLines_node]]
              exact joinLines_def name (renderLines_list rest)
      · by_cases h3 : k = "if"
        · rw [h3] at h ⊢
          cases body with
          | nil => simp [transpile_node] at h
          | cons b0 rest =>
            cases b0 with
            | block k2 b2 => simp [transpile_node] at h
            | code cond =>
              cases htl : transpile_list rest with
              | none => simp [transpile_node, htl] at h
              | some t =>
                have ht2 : t = joinLines (renderLines_list rest) := IHtail t htl
                have hval : transpile_node (Node.block ("if") (Node.code cond :: rest)) =
                    some ("    " ++ kwTable ("if") ++ " (" ++ cond ++ ") \x7b\n" ++ t ++ "    \x7d\n") := by
                  simp [transpile_node, htl]
                rw [hval] at h
                have hs := Option.some.inj h
                rw [← hs, ht2]
                rw [show renderLines_node (Node.block ("if") (Node.code cond :: rest)) =
                    ("    if (" ++ cond ++ ") \x7b") :: renderLines_list rest ++ ["    \x7d"] by
                  simp [renderLines_node]]
                exact joinLines_ifkind cond (renderLines_list rest)
        · by_cases h4 : k = "while"
          · rw [h4] at h ⊢
            cases body with
            | nil => simp [transpile_node] at h
            | cons b0 rest =>
              cases b0 with
              | block k2 b2 => simp [transpile_node] at h
              | code cond =>
                cases htl : transpile_list rest with
                | none => simp [transpile_node, htl] at h
                | some t =>
                  have ht2 : t = joinLines (renderLines_list rest) := IHtail t htl
                  have hval : transpile_node (Node.block ("while") (Node.code cond :: rest)) =
                      some ("    " ++ kwTable ("while") ++ " (" ++ cond ++ ") \x7b\n" ++ t ++ "    \x7d\n") := by
                    simp [transpile_node, htl]
                  rw [hval] at h
                  have hs := Option.some.inj h
                  rw [← hs, ht2]
                  rw [show renderLines_node (Node.block ("while") (Node.code cond :: rest)) =
                      ("    while (" ++ cond ++ ") \x7b") :: renderLines_list rest ++ ["    \x7d"] by
                    simp [renderLines_node]]
                  exact joinLines_whilekind cond (renderLines_list rest)
          · rw [transpile_node_other_kind k body h1 h2 h3 h4] at h
            have hs := Option.some.inj h
            rw [← hs, renderLines_other_kind k body h1 h2 h3 h4]
            rfl
  · intro s h
    have hs : ("" : String) = s := Option.some.inj h
    rw [← hs]
    rfl
  · intro n l IHn IHl s h
    simp only [transpile_list] at h
    cases hn : transpile_node n with
    | none => rw [hn] at h; simp at h
    | some sn =>
      rw [hn] at h
      cases hl : transpile_list l with
      | none => rw [hl] at h; simp at h
      | some tl =>
        rw [hl] at h
        simp at h
        rw [← h, IHn sn hn, IHl tl hl]
        rw [show renderLines_list (n :: l) = renderLines_node n ++ renderLines_list l by
          simp [renderLines_list]]
        rw [joinLines_append]

end ConvertRuby

namespace ConvertRuby

theorem renderLines_facts :
    (∀ n : Node, cleanNode n = true → ∀ line ∈ renderLines_node n,
      (∀ c ∈ line.data, c.toNat ≠ 10) ∧
      (leadingSpaces line = 0 ∨ leadingSpaces line = 4)) ∧
    (∀ l : List Node, cleanList l = true → ∀ line ∈ renderLines_list l,
      (∀ c ∈ line.data, c.toNat ≠ 10) ∧
      (leadingSpaces line = 0 ∨ leadingSpaces line = 4)) := by
  apply nodeInduction
  · intro v hv line hline
    have hvc : cleanStr v = true := hv
    have hl : line = "    " ++ v := by simpa [renderLines_node] using hline
    subst hl
    constructor
    · intro c hc
      rw [String.data_append] at hc
      rcases List.mem_append.mp hc with hc | hc
      · have h32 : ∀ x ∈ ("    " : String).data, x.toNat = 32 := by decide
        have := h32 c hc
        omega
      · exact clean_no_nl v hvc c hc
    · right
      exact leadingSpaces_four_prefix v hvc
  · intro k body IH IHtail hclean line hline
    by_cases h1 : k = "class"
    · rw [h1] at hline
      cases body with
      | nil => simp [renderLines_node] at hline
      | cons b0 rest =>
        cases b0 with
        | block k2 b2 => simp [renderLines_node] at hline
        | code name =>
          have hcl : cleanList (Node.code name :: rest) = true := hclean
          simp only [cleanList, Bool.and_eq_true] at hcl
          have hnameS : cleanStr name = true := hcl.1
          have IHt : cleanList rest = true → ∀ line ∈ renderLines_list rest,
              (∀ c ∈ line.data, c.toNat ≠ 10) ∧
              (leadingSpaces line = 0 ∨ leadingSpaces line = 4) := IHtail
          simp [renderLines_node] at hline
          rcases hline with hline | hline | hline
          · subst hline
            refine ⟨no_nl_three ("public class ") name (" \x7b") (by decide) (by decide) hnameS, ?_⟩
            left
            rw [leadingSpaces_header ("public class ") name (" \x7b") (by decide)]
            decide
          · exact IHt hcl.2 line hline
          · subst hline
            exact ⟨by decide, Or.inl (by decide)⟩
    · by_cases h2 : k = "def"
      · rw [h2] at hline
        cases body with
        | nil => simp [renderLines_node] at hline
        | cons b0 rest =>
          cases b0 with
          | block k2 b2 => simp [renderLines_node] at hline
          | code name =>
            have hcl : cleanList (Node.code name :: rest) = true := hclean
            simp only [cleanList, Bool.and_eq_true] at hcl
            have hnameS : cleanStr name = true := hcl.1
            have IHt : cleanList rest = true → ∀ line ∈ renderLines_list rest,
                (∀ c ∈ line.data, c.toNat ≠ 10) ∧
                (leadingSpaces line = 0 ∨ leadingSpaces line = 4) := IHtail
            simp [renderLines_node] at hline
            rcases hline with hline | hline | hline
            · subst hline
              refine ⟨no_nl_three ("    public void ") name ("() \x7b") (by decide) (by decide) hnameS, ?_⟩
              right
              rw [leadingSpaces_header ("    public void ") name ("() \x7b") (by decide)]
              decide
            · exact IHt hcl.2 line hline
            · subst hline
              exact ⟨by decide, Or.inr (by decide)⟩
      · by_cases h3 : k = "if"
        · rw [h3] at hline
          cases body with
          | nil => simp [renderLines_node] at hline
          | cons b0 rest =>
            cases b0 with
            | block k2 b2 => simp [renderLines_node] at hline
            | code cond =>
              have hcl : cleanList (Node.code cond :: rest) = true := hclean
              simp only [cleanList, Bool.and_eq_true] at hcl
              have hcondS : cleanStr cond = true := hcl.1
              have IHt : cleanList rest = true → ∀ line ∈ renderLines_list rest,
                  (∀ c ∈ line.data, c.toNat ≠ 10) ∧
                  (leadingSpaces line = 0 ∨ leadingSpaces line = 4) := IHtail
              simp [renderLines_node] at hline
              rcases hline with hline | hline | hline
              · subst hline
                refine ⟨no_nl_three ("    if (") cond (") \x7b") (by decide) (by decide) hcondS, ?_⟩
                right
                rw [leadingSpaces_header ("    if (") cond (") \x7b") (by decide)]
                decide
              · exact IHt hcl.2 line hline
              · subst hline
                exact ⟨by decide, Or.inr (by decide)⟩
        · by_cases h4 : k = "while"
          · rw [h4] at hline
            cases body with
            | nil => simp [renderLines_node] at hline
            | cons b0 rest =>
              cases b0 with
              | block k2 b2 => simp [renderLines_node] at hline
              | code cond =>
                have hcl : cleanList (Node.code cond :: rest) = true := hclean
                simp only [cleanList, Bool.and_eq_true] at hcl
                have hcondS : cleanStr cond = true := hcl.1
                have IHt : cleanList rest = true → ∀ line ∈ renderLines_list rest,
                    (∀ c ∈ line.data, c.toNat ≠ 10) ∧
                    (leadingSpaces line = 0 ∨ leadingSpaces line = 4) := IHtail
                simp [renderLines_node] at hline
                rcases hline with hline | hline | hline
                · subst hline
                  refine ⟨no_nl_three ("    while (") cond (") \x7b") (by decide) (by decide) hcondS, ?_⟩
                  right
                  rw [leadingSpaces_header ("    while (") cond (") \x7b") (by decide)]
                  decide
                · exact IHt hcl.2 line hline
                · subst hline
                  exact ⟨by decide, Or.inr (by decide)⟩
          · rw [renderLines_other_kind k body h1 h2 h3 h4] at hline
            simp at hline
  · intro _ line hline
    simp [renderLines_list] at hline
  · intro n l IHn IHl hclean line hline
    simp only [cleanList, Bool.and_eq_true] at hclean
    simp only [renderLines_list] at hline
    rcases List.mem_append.mp hline with hl2 | hl2
    · exact IHn hclean.1 line hl2
    · exact IHl hclean.2 line hl2

/-- C6 (amended): for a forest of whitespace-free fragment values whose
rendering succeeds, the output splits into exactly the renderer's emitted
lines, and every line is indented by either exactly 4 spaces (code fragments,
def/if/while headers and closers) or 0 spaces (class headers and closers) —
never more, regardless of nesting depth. -/
theorem C6_theorem (forest : List Node) (s : String)
    (hclean : cleanList forest = true) (h : transpile_to_csharp forest = some s) :
    splitLines s = renderLines_list forest ++ [""] ∧
    ∀ line ∈ renderLines_list forest,
      leadingSpaces line = 0 ∨ leadingSpaces line = 4 := by
  have hbridge := transpile_renderLines.2 forest s h
  have hlines := renderLines_facts.2 forest hclean
  constructor
  · rw [hbridge]
    exact splitLines_joinLines (renderLines_list forest)
      (fun line hl => (hlines line hl).1)
  · intro line hl
    exact (hlines line hl).2

/-- C6 witness: the amended theorem applied to the Greeter forest. -/
theorem C6_witness :
    cleanList [Node.block ("class") [Node.code ("Greeter"),
      Node.block ("def") [Node.code ("hello"), Node.code ("puts")]]] = true ∧
    transpile_to_csharp [Node.block ("class") [Node.code ("Greeter"),
      Node.block ("def") [Node.code ("hello"), Node.code ("puts")]]] =
      some ("public class Greeter \x7b\n    public void hello() \x7b\n    puts\n    \x7d\n\x7d\n") ∧
    (splitLines ("public class Greeter \x7b\n    public void hello() \x7b\n    puts\n    \x7d\n\x7d\n") =
      renderLines_list [Node.block ("class") [Node.code ("Greeter"),
        Node.block ("def") [Node.code ("hello"), Node.code ("puts")]]] ++ [""] ∧
     ∀ line ∈ renderLines_list [Node.block ("class") [Node.code ("Greeter"),
        Node.block ("def") [Node.code ("hello"), Node.code ("puts")]]],
       leadingSpaces line = 0 ∨ leadingSpaces line = 4) :=
  ⟨rfl, rfl,
   C6_theorem [Node.block ("class") [Node.code ("Greeter"),
     Node.block ("def") [Node.code ("hello"), Node.code ("puts")]]]
     ("public class Greeter \x7b\n    public void hello() \x7b\n    puts\n    \x7d\n\x7d\n")
     rfl rfl⟩

end ConvertRuby
